import Mathlib

/-!
Verification development for the site_word_freq crawler.

The definitions below are a shallow embedding of the Go source:

* `updateWord`, `mergePage`, `wordCount` model the Go map update
  `wf.words[k] += v` performed under the mutex in `WordFinder.addLinkData`
  (finder.go / revision part_002 lines 176-189).  A Go map is modelled as an
  association list in insertion order; reading an absent key yields 0, exactly
  as `wf.words[k] += v` treats an absent key.
-/

namespace SiteWordFreq

/-- Go map update `m[k] += v`: if the key is present, add to its value in
place; otherwise insert the key at the end with value `v`. -/
def updateWord {κ : Type} [DecidableEq κ] (m : List (κ × Nat)) (k : κ) (v : Nat) :
    List (κ × Nat) :=
  match m with
  | [] => [(k, v)]
  | (k₀, v₀) :: rest =>
      if k₀ = k then (k₀, v₀ + v) :: rest else (k₀, v₀) :: updateWord rest k v

/-- Go map read `m[k]` (0 when absent). -/
def wordCount {κ : Type} [DecidableEq κ] (m : List (κ × Nat)) (k : κ) : Nat :=
  match m with
  | [] => 0
  | (k₀, v₀) :: rest => if k₀ = k then v₀ else wordCount rest k

/-- The merge loop of `WordFinder.addLinkData`:
`for k, v := range wds { wf.words[k] += v }`. -/
def mergePage (ws : List (String × Nat)) (wds : List (String × Nat)) :
    List (String × Nat) :=
  wds.foldl (fun m kv => updateWord m kv.1 kv.2) ws

/-- Total contribution of one page's word map `wds` to the key `k`. -/
def pageSum (wds : List (String × Nat)) (k : String) : Nat :=
  (wds.map (fun kv => if kv.1 = k then kv.2 else 0)).sum

theorem wordCount_updateWord {κ : Type} [DecidableEq κ]
    (m : List (κ × Nat)) (k k' : κ) (v : Nat) :
    wordCount (updateWord m k v) k' =
      wordCount m k' + if k = k' then v else 0 := by
  induction m with
  | nil =>
      by_cases h : k = k' <;> simp [updateWord, wordCount, h]
  | cons kv rest ih =>
      obtain ⟨k₀, v₀⟩ := kv
      by_cases h₀ : k₀ = k
      · subst h₀
        by_cases h : k₀ = k' <;> simp [updateWord, wordCount, h, Nat.add_comm]
      · by_cases h : k₀ = k'
        · subst h
          have hkk : ¬ k = k₀ := fun he => h₀ he.symm
          simp [updateWord, wordCount, h₀, hkk]
        · simp [updateWord, wordCount, h₀, h, ih]

theorem wordCount_mergePage (ws wds : List (String × Nat)) (k : String) :
    wordCount (mergePage ws wds) k = wordCount ws k + pageSum wds k := by
  induction wds generalizing ws with
  | nil => simp [mergePage, pageSum]
  | cons kv rest ih =>
      simp only [mergePage, List.foldl_cons] at *
      rw [ih, wordCount_updateWord]
      simp [pageSum, Nat.add_assoc, Nat.add_comm, Nat.add_left_comm]

theorem wordCount_foldl_mergePage (rs : List (List (String × Nat)))
    (ws : List (String × Nat)) (k : String) :
    wordCount (rs.foldl mergePage ws) k =
      wordCount ws k + (rs.map (fun wds => pageSum wds k)).sum := by
  induction rs generalizing ws with
  | nil => simp
  | cons w rest ih =>
      simp only [List.foldl_cons, List.map_cons, List.sum_cons]
      rw [ih, wordCount_mergePage]
      omega

/-- C9: the aggregate word-table merge is order-independent: folding the
per-key summing merge (`words[k] += v`) over any permutation of the same
multiset of PageResult word maps yields the same final word-to-count
mapping. -/
theorem mergePage_order_independent
    (rs rs' : List (List (String × Nat))) (ws : List (String × Nat))
    (k : String) (h : rs.Perm rs') :
    wordCount (rs.foldl mergePage ws) k =
      wordCount (rs'.foldl mergePage ws) k := by
  rw [wordCount_foldl_mergePage, wordCount_foldl_mergePage,
    (h.map (fun wds => pageSum wds k)).sum_eq]

/-- Witness for C9 at concrete word maps: merging the two pages in either
order gives the same count for the key "a". -/
theorem mergePage_order_independent_witness :
    ([[("a", 2), ("b", 1)], [("a", 3)]].Perm
        [[("a", 3)], [("a", 2), ("b", 1)]]) ∧
      wordCount ([[("a", 2), ("b", 1)], [("a", 3)]].foldl mergePage []) "a" =
        wordCount ([[("a", 3)], [("a", 2), ("b", 1)]].foldl mergePage []) "a" :=
  ⟨List.Perm.swap _ _ _, mergePage_order_independent _ _ [] "a"
    (List.Perm.swap _ _ _)⟩

/-!
### The coordinating loop

`WordFinder.run` / `loopFunc` (revision part_002 lines 99-158; finder.go
lines 85-107 is the same loop without the cancellation branch).  A run is
modelled by the sequence of batches the loop receives on the filter channel;
the state records the Go locals `cnt` (an int), `visited`, and additionally
the history of tasks sent and the number of filter receives, which the Go
code performs via `tasks <- link` / `l := <-wf.filter`.  Cancellation
(`ctx.Done()`) is modelled by the iteration index at which the context
becomes done: once done, the `select` always takes the Done branch, since
a closed channel is always ready and `default` is only taken when no case
is ready.
-/

structure LoopState where
  cnt : Int
  visited : List String
  sent : List String
  received : Nat
  interrupt : Bool
deriving Repr, DecidableEq

/-- State after `tasks <- wf.startURL.String()` primed the pump and
`cnt := 1`: the seed Task has been enqueued, nothing was received, and the
visited map is empty (the seed is NOT added to it). -/
def initState (seed : String) : LoopState :=
  { cnt := 1, visited := [], sent := [seed], received := 0, interrupt := false }

/-- Is the context done at iteration `n`?  `none` means the context is never
cancelled; `some k` means it is done from iteration `k` on (a done context
stays done). -/
def isCancelled (cancelAt : Option Nat) (n : Nat) : Bool :=
  match cancelAt with
  | none => false
  | some k => decide (k ≤ n)

/-- The inner `for _, link := range l` loop: skip links already visited,
otherwise mark visited, increment `cnt`, and send the link as a Task. -/
def processLinks (st : LoopState) : List String → LoopState
  | [] => st
  | link :: rest =>
      if link ∈ st.visited then processLinks st rest
      else
        processLinks
          (LoopState.mk (st.cnt + 1) (link :: st.visited)
            (st.sent ++ [link]) st.received st.interrupt) rest

/-- One iteration of the coordinating loop after the blocking receive
delivered the batch `l`: the `select` on `ctx.Done()` either swallows the
batch (setting `wf.interrupt`) or processes it, and the `cnt--` loop
post-statement balances the receive. -/
def loopIter (cancelAt : Option Nat) (st : LoopState) (l : List String) :
    LoopState :=
  let st' :=
    if isCancelled cancelAt st.received then { st with interrupt := true }
    else processLinks st l
  LoopState.mk (st'.cnt - 1) st'.visited st'.sent (st'.received + 1)
    st'.interrupt

/-- The coordinating loop `for cnt := 1; cnt > 0; cnt--`, driven by the
batches available on the filter channel.  `none` means the loop still wants
to receive but no batch is left — the run does not complete. -/
def loopFunc (cancelAt : Option Nat) :
    List (List String) → LoopState → Option LoopState
  | [], st => if st.cnt ≤ 0 then some st else none
  | l :: rest, st =>
      if st.cnt ≤ 0 then some st
      else loopFunc cancelAt rest (loopIter cancelAt st l)

/-- The states the coordinating loop passes through (sampled at the top of
each iteration, plus the exit state). -/
def loopTrace (cancelAt : Option Nat) :
    List (List String) → LoopState → List LoopState
  | [], st => [st]
  | l :: rest, st =>
      if st.cnt ≤ 0 then [st]
      else st :: loopTrace cancelAt rest (loopIter cancelAt st l)

theorem processLinks_received (l : List String) (st : LoopState) :
    (processLinks st l).received = st.received := by
  induction l generalizing st with
  | nil => rfl
  | cons link rest ih =>
      by_cases h : link ∈ st.visited <;> simp [processLinks, h, ih]

theorem processLinks_interrupt (l : List String) (st : LoopState) :
    (processLinks st l).interrupt = st.interrupt := by
  induction l generalizing st with
  | nil => rfl
  | cons link rest ih =>
      by_cases h : link ∈ st.visited <;> simp [processLinks, h, ih]

theorem processLinks_cnt_sent (l : List String) (st : LoopState) :
    ∃ d : Nat, (processLinks st l).cnt = st.cnt + d ∧
      (processLinks st l).sent.length = st.sent.length + d := by
  induction l generalizing st with
  | nil => exact ⟨0, by simp [processLinks]⟩
  | cons link rest ih =>
      by_cases h : link ∈ st.visited
      · simpa [processLinks, h] using ih st
      · obtain ⟨d, hc, hs⟩ := ih (LoopState.mk (st.cnt + 1) (link :: st.visited)
          (st.sent ++ [link]) st.received st.interrupt)
        refine ⟨d + 1, ?_, ?_⟩
        · rw [processLinks, if_neg h, hc]; push_cast; ring
        · rw [processLinks, if_neg h, hs]; simp; omega

/-- The pending-work-counter relation maintained by the loop: the counter
equals the number of Tasks ever enqueued minus the number of filter
receives. -/
def cntInv (st : LoopState) : Prop :=
  st.cnt = (st.sent.length : Int) - (st.received : Int)

/-- Dedup bookkeeping of the loop: the seed heads the sent list, the
forwarded links (everything after the seed) are pairwise distinct, and each
of them is in the visited set. -/
def sentInv (st : LoopState) : Prop :=
  st.sent ≠ [] ∧ st.sent.tail.Nodup ∧ ∀ x ∈ st.sent.tail, x ∈ st.visited

theorem processLinks_visited_mono (l : List String) (st : LoopState) :
    ∀ x ∈ st.visited, x ∈ (processLinks st l).visited := by
  induction l generalizing st with
  | nil => intro x hx; exact hx
  | cons link rest ih =>
      intro x hx
      by_cases h : link ∈ st.visited
      · rw [processLinks, if_pos h]; exact ih st x hx
      · rw [processLinks, if_neg h]
        exact ih _ x (List.mem_cons_of_mem _ hx)

theorem processLinks_sent_append (l : List String) (st : LoopState) :
    ∃ ext : List String,
      (processLinks st l).sent = st.sent ++ ext ∧ ∀ x ∈ ext, x ∈ l := by
  induction l generalizing st with
  | nil => exact ⟨[], by simp [processLinks]⟩
  | cons link rest ih =>
      by_cases h : link ∈ st.visited
      · obtain ⟨ext, he, hsub⟩ := ih st
        exact ⟨ext, by rw [processLinks, if_pos h]; exact he,
          fun x hx => List.mem_cons_of_mem _ (hsub x hx)⟩
      · obtain ⟨ext, he, hsub⟩ := ih (LoopState.mk (st.cnt + 1)
          (link :: st.visited) (st.sent ++ [link]) st.received st.interrupt)
        refine ⟨link :: ext, ?_, ?_⟩
        · rw [processLinks, if_neg h, he]; simp
        · intro x hx
          rcases List.mem_cons.mp hx with hx | hx
          · exact hx ▸ List.mem_cons_self _ _
          · exact List.mem_cons_of_mem _ (hsub x hx)

theorem processLinks_sentInv (l : List String) (st : LoopState)
    (h : sentInv st) : sentInv (processLinks st l) := by
  induction l generalizing st with
  | nil => exact h
  | cons link rest ih =>
      by_cases hm : link ∈ st.visited
      · rw [processLinks, if_pos hm]; exact ih st h
      · rw [processLinks, if_neg hm]
        refine ih _ ?_
        obtain ⟨hne, hnd, hvis⟩ := h
        obtain ⟨a, s, hs⟩ : ∃ a s, st.sent = a :: s :=
          match st.sent, hne with
          | a :: s, _ => ⟨a, s, rfl⟩
        refine ⟨by simp, ?_, ?_⟩
        · have htail : (st.sent ++ [link]).tail = st.sent.tail ++ [link] := by
            rw [hs]; simp
          rw [htail]
          refine List.Nodup.append hnd (List.nodup_singleton link) ?_
          intro x hx hx'
          rw [List.mem_singleton] at hx'
          exact hm (hx' ▸ hvis x hx)
        · intro x hx
          have htail : (st.sent ++ [link]).tail = st.sent.tail ++ [link] := by
            rw [hs]; simp
          rw [htail, List.mem_append] at hx
          rcases hx with hx | hx
          · exact List.mem_cons_of_mem _ (hvis x hx)
          · rw [List.mem_singleton] at hx
            exact hx ▸ List.mem_cons_self _ _

theorem processLinks_cntInv (l : List String) (st : LoopState)
    (h : cntInv st) : cntInv (processLinks st l) := by
  obtain ⟨d, hc, hs⟩ := processLinks_cnt_sent l st
  unfold cntInv at *
  rw [hc, hs, processLinks_received, h]
  push_cast; ring

theorem processLinks_cnt_lb (l : List String) (st : LoopState) :
    st.cnt ≤ (processLinks st l).cnt := by
  obtain ⟨d, hc, _⟩ := processLinks_cnt_sent l st
  omega

theorem loopIter_cntInv (c : Option Nat) (st : LoopState) (l : List String)
    (h : cntInv st) : cntInv (loopIter c st l) := by
  by_cases hc : isCancelled c st.received
  · unfold cntInv at h ⊢
    simp [loopIter, hc]
    omega
  · have h₁ := processLinks_cntInv l st h
    have hr := processLinks_received l st
    unfold cntInv at h h₁ ⊢
    simp [loopIter, hc]
    omega

theorem loopIter_cnt_lb (c : Option Nat) (st : LoopState) (l : List String) :
    st.cnt - 1 ≤ (loopIter c st l).cnt := by
  by_cases hc : isCancelled c st.received
  · simp [loopIter, hc]
  · have := processLinks_cnt_lb l st
    simp [loopIter, hc]
    omega

theorem loopIter_sentInv (c : Option Nat) (st : LoopState) (l : List String)
    (h : sentInv st) : sentInv (loopIter c st l) := by
  by_cases hc : isCancelled c st.received
  · unfold sentInv at h ⊢
    simpa [loopIter, hc] using h
  · have h₁ := processLinks_sentInv l st h
    unfold sentInv at h₁ ⊢
    simpa [loopIter, hc] using h₁

theorem loopFunc_cnt_zero (c : Option Nat) (batches : List (List String))
    (st fin : LoopState) (h : loopFunc c batches st = some fin)
    (h0 : 0 ≤ st.cnt) : fin.cnt = 0 := by
  induction batches generalizing st with
  | nil =>
      unfold loopFunc at h
      by_cases hz : st.cnt ≤ 0
      · rw [if_pos hz] at h
        cases h; omega
      · rw [if_neg hz] at h; cases h
  | cons l rest ih =>
      unfold loopFunc at h
      by_cases hz : st.cnt ≤ 0
      · rw [if_pos hz] at h
        cases h; omega
      · rw [if_neg hz] at h
        refine ih _ h ?_
        have := loopIter_cnt_lb c st l
        omega

theorem loopFunc_cntInv (c : Option Nat) (batches : List (List String))
    (st fin : LoopState) (h : loopFunc c batches st = some fin)
    (hP : cntInv st) : cntInv fin := by
  induction batches generalizing st with
  | nil =>
      unfold loopFunc at h
      by_cases hz : st.cnt ≤ 0
      · rw [if_pos hz] at h; cases h; exact hP
      · rw [if_neg hz] at h; cases h
  | cons l rest ih =>
      unfold loopFunc at h
      by_cases hz : st.cnt ≤ 0
      · rw [if_pos hz] at h; cases h; exact hP
      · rw [if_neg hz] at h
        exact ih _ h (loopIter_cntInv c st l hP)

theorem loopFunc_sentInv (c : Option Nat) (batches : List (List String))
    (st fin : LoopState) (h : loopFunc c batches st = some fin)
    (hQ : sentInv st) : sentInv fin := by
  induction batches generalizing st with
  | nil =>
      unfold loopFunc at h
      by_cases hz : st.cnt ≤ 0
      · rw [if_pos hz] at h; cases h; exact hQ
      · rw [if_neg hz] at h; cases h
  | cons l rest ih =>
      unfold loopFunc at h
      by_cases hz : st.cnt ≤ 0
      · rw [if_pos hz] at h; cases h; exact hQ
      · rw [if_neg hz] at h
        exact ih _ h (loopIter_sentInv c st l hQ)

theorem loopFunc_sent_append (c : Option Nat) (batches : List (List String))
    (st fin : LoopState) (h : loopFunc c batches st = some fin) :
    ∃ ext : List String, fin.sent = st.sent ++ ext ∧
      ∀ x ∈ ext, x ∈ batches.flatten := by
  induction batches generalizing st with
  | nil =>
      unfold loopFunc at h
      by_cases hz : st.cnt ≤ 0
      · rw [if_pos hz] at h; cases h; exact ⟨[], by simp⟩
      · rw [if_neg hz] at h; cases h
  | cons l rest ih =>
      unfold loopFunc at h
      by_cases hz : st.cnt ≤ 0
      · rw [if_pos hz] at h; cases h; exact ⟨[], by simp⟩
      · rw [if_neg hz] at h
        obtain ⟨ext₂, he₂, hs₂⟩ := ih _ h
        by_cases hcc : isCancelled c st.received
        · simp only [loopIter, hcc, if_pos] at he₂
          refine ⟨ext₂, he₂, fun x hx => ?_⟩
          simp only [List.flatten_cons, List.mem_append]
          exact Or.inr (hs₂ x hx)
        · simp [loopIter, hcc] at he₂
          obtain ⟨ext₁, he₁, hs₁⟩ := processLinks_sent_append l st
          refine ⟨ext₁ ++ ext₂, ?_, fun x hx => ?_⟩
          · rw [he₂, he₁, List.append_assoc]
          · simp only [List.flatten_cons, List.mem_append]
            rcases List.mem_append.mp hx with hx | hx
            · exact Or.inl (hs₁ x hx)
            · exact Or.inr (hs₂ x hx)

theorem loopTrace_inv (c : Option Nat) (batches : List (List String))
    (st : LoopState) (h0 : 0 ≤ st.cnt) (hP : cntInv st) :
    ∀ s ∈ loopTrace c batches st, 0 ≤ s.cnt ∧ cntInv s := by
  induction batches generalizing st with
  | nil =>
      intro s hs
      unfold loopTrace at hs
      rw [List.mem_singleton] at hs
      exact hs ▸ ⟨h0, hP⟩
  | cons l rest ih =>
      intro s hs
      unfold loopTrace at hs
      by_cases hz : st.cnt ≤ 0
      · rw [if_pos hz, List.mem_singleton] at hs
        exact hs ▸ ⟨h0, hP⟩
      · rw [if_neg hz, List.mem_cons] at hs
        rcases hs with hs | hs
        · exact hs ▸ ⟨h0, hP⟩
        · have hlb := loopIter_cnt_lb c st l
          exact ih _ (by omega) (loopIter_cntInv c st l hP) s hs

/-- C1: for every run of the coordinating loop that completes without
cancellation, the counter starts at 1 for the seed, throughout the run
equals (Tasks ever enqueued) - (filter receives) — i.e. it is incremented by
exactly 1 per Task enqueued and decremented by exactly 1 per receive — and
never goes negative; the loop exits with the counter at exactly 0, at which
point the number of Tasks ever enqueued equals the number of results
received. -/
theorem loopFunc_pending_counter (seed : String)
    (batches : List (List String)) (fin : LoopState)
    (h : loopFunc none batches (initState seed) = some fin) :
    fin.cnt = 0 ∧ (fin.sent.length : Int) = (fin.received : Int) ∧
      ∀ st ∈ loopTrace none batches (initState seed),
        0 ≤ st.cnt ∧ st.cnt = (st.sent.length : Int) - (st.received : Int) := by
  have hinit : cntInv (initState seed) := by simp [cntInv, initState]
  have h0 : (0 : Int) ≤ (initState seed).cnt := by simp [initState]
  have hz := loopFunc_cnt_zero none batches _ fin h h0
  have hP := loopFunc_cntInv none batches _ fin h hinit
  unfold cntInv at hP
  exact ⟨hz, by omega, loopTrace_inv none batches _ h0 hinit⟩

/-- Witness for C1 at a concrete run: the seed page yields one link "a",
which yields no links. -/
theorem loopFunc_pending_counter_witness :
    loopFunc none [["a"], []] (initState "s") =
        some (LoopState.mk 0 ["a"] ["s", "a"] 2 false) ∧
      ((LoopState.mk 0 ["a"] ["s", "a"] 2 false : LoopState).cnt = 0 ∧
        ((LoopState.mk 0 ["a"] ["s", "a"] 2 false : LoopState).sent.length : Int) =
          ((LoopState.mk 0 ["a"] ["s", "a"] 2 false : LoopState).received : Int) ∧
        ∀ st ∈ loopTrace none [["a"], []] (initState "s"),
          0 ≤ st.cnt ∧
            st.cnt = (st.sent.length : Int) - (st.received : Int)) :=
  ⟨by decide, loopFunc_pending_counter "s" [["a"], []] _ (by decide)⟩

/-- C4 counterexample: the seed Task is enqueued by the pump-priming send
without being added to the visited map, so a run whose seed page links back
to the seed URL enqueues that URL a second time — the sent list of the
completed run is ["s", "s"], which is not duplicate-free. -/
theorem loopFunc_seed_reenqueued :
    loopFunc none [["s"], []] (initState "s") =
        some (LoopState.mk 0 ["s"] ["s", "s"] 2 false) ∧
      ¬ (LoopState.mk 0 ["s"] ["s", "s"] 2 false : LoopState).sent.Nodup :=
  ⟨by decide, by decide⟩

/-- C4 (amended): within a single run, no URL is forwarded from the filter
channel as a new Task more than once: a link is forwarded only if it is
absent from the visited set and it is added to the visited set before being
forwarded.  Hence all Tasks after the seed are pairwise distinct and lie in
the visited set; the full sent list (seed included) is duplicate-free
whenever the seed URL is never rediscovered as a link, but the priming send
of the seed itself bypasses the visited set. -/
theorem loopFunc_visited_dedup (seed : String) (cancelAt : Option Nat)
    (batches : List (List String)) (fin : LoopState)
    (h : loopFunc cancelAt batches (initState seed) = some fin) :
    fin.sent.tail.Nodup ∧ (∀ x ∈ fin.sent.tail, x ∈ fin.visited) ∧
      (seed ∉ batches.flatten → fin.sent.Nodup) := by
  have hinit : sentInv (initState seed) := by
    refine ⟨by simp [initState], by simp [initState], by simp [initState]⟩
  obtain ⟨hne, hnd, hvis⟩ := loopFunc_sentInv cancelAt batches _ fin h hinit
  obtain ⟨ext, he, hsub⟩ := loopFunc_sent_append cancelAt batches _ fin h
  have hsent : fin.sent = seed :: ext := by simpa [initState] using he
  refine ⟨hnd, hvis, fun hseed => ?_⟩
  rw [hsent, List.nodup_cons]
  have htail : fin.sent.tail = ext := by rw [hsent]; rfl
  exact ⟨fun hmem => hseed (hsub seed hmem), htail ▸ hnd⟩

/-- Witness for C4 (amended) at a concrete run: seed "s" discovers "a". -/
theorem loopFunc_visited_dedup_witness :
    loopFunc none [["a"], []] (initState "s") =
        some (LoopState.mk 0 ["a"] ["s", "a"] 2 false) ∧
      ((LoopState.mk 0 ["a"] ["s", "a"] 2 false : LoopState).sent.tail.Nodup ∧
        (∀ x ∈ (LoopState.mk 0 ["a"] ["s", "a"] 2 false : LoopState).sent.tail,
          x ∈ (LoopState.mk 0 ["a"] ["s", "a"] 2 false : LoopState).visited) ∧
        ("s" ∉ ([["a"], []] : List (List String)).flatten →
          (LoopState.mk 0 ["a"] ["s", "a"] 2 false : LoopState).sent.Nodup)) :=
  ⟨by decide, loopFunc_visited_dedup "s" none [["a"], []] _ (by decide)⟩

/-- C5: once the coordinating loop observes the cancellation signal (the
context is done from iteration k on, and the loop is at or past iteration
k), it never enqueues another Task and never marks another URL visited; it
keeps receiving from the filter channel, decrementing the counter on every
subsequent iteration, until the counter reaches exactly 0 — one further
receive per Task in flight — at which point the run terminates with the
interrupted flag set (when any work was still in flight). -/
theorem loopFunc_drain (k : Nat) (batches : List (List String))
    (st : LoopState) (hk : k ≤ st.received) (h0 : 0 ≤ st.cnt)
    (hlen : st.cnt ≤ (batches.length : Int)) :
    ∃ fin, loopFunc (some k) batches st = some fin ∧
      fin.sent = st.sent ∧ fin.visited = st.visited ∧ fin.cnt = 0 ∧
      (fin.received : Int) = (st.received : Int) + st.cnt ∧
      (st.interrupt = true → fin.interrupt = true) ∧
      (0 < st.cnt → fin.interrupt = true) := by
  induction batches generalizing st with
  | nil =>
      have hz : st.cnt = 0 := by simp at hlen; omega
      refine ⟨st, ?_, rfl, rfl, hz, by omega, fun hi => hi, by omega⟩
      unfold loopFunc
      rw [if_pos (by omega)]
  | cons l rest ih =>
      by_cases hz : st.cnt ≤ 0
      · have hcz : st.cnt = 0 := le_antisymm hz h0
        refine ⟨st, ?_, rfl, rfl, hcz, by omega, fun hi => hi, by omega⟩
        unfold loopFunc
        rw [if_pos hz]
      · have hcanc : isCancelled (some k) st.received = true := by
          simp [isCancelled]
          omega
        have hfields :
            (loopIter (some k) st l).sent = st.sent ∧
              (loopIter (some k) st l).visited = st.visited ∧
              (loopIter (some k) st l).cnt = st.cnt - 1 ∧
              (loopIter (some k) st l).received = st.received + 1 ∧
              (loopIter (some k) st l).interrupt = true := by
          simp [loopIter, hcanc]
        obtain ⟨hse, hvi, hcn, hre, hin⟩ := hfields
        obtain ⟨fin, hrun, hfs, hfv, hfc, hfr, hfi, _⟩ :=
          ih (loopIter (some k) st l) (by omega) (by omega)
            (by simp at hlen ⊢; omega)
        refine ⟨fin, ?_, by rw [hfs, hse], by rw [hfv, hvi], hfc, ?_, ?_, ?_⟩
        · unfold loopFunc
          rw [if_neg hz]
          exact hrun
        · rw [hfr, hre]
          push_cast
          omega
        · intro _
          exact hfi hin
        · intro _
          exact hfi hin

/-- Witness for C5: a state with two Tasks in flight at iteration 1, with
the context done from iteration 1 on; the two pending batches are drained
(one of them nonempty) without forwarding anything. -/
theorem loopFunc_drain_witness :
    (1 ≤ (LoopState.mk 2 [] ["s", "a"] 1 false : LoopState).received) ∧
      ∃ fin, loopFunc (some 1) [["y"], []]
          (LoopState.mk 2 [] ["s", "a"] 1 false) = some fin ∧
        fin.sent = (LoopState.mk 2 [] ["s", "a"] 1 false : LoopState).sent ∧
        fin.visited =
          (LoopState.mk 2 [] ["s", "a"] 1 false : LoopState).visited ∧
        fin.cnt = 0 ∧
        (fin.received : Int) =
          ((LoopState.mk 2 [] ["s", "a"] 1 false : LoopState).received : Int) +
            (LoopState.mk 2 [] ["s", "a"] 1 false : LoopState).cnt ∧
        ((LoopState.mk 2 [] ["s", "a"] 1 false : LoopState).interrupt = true →
          fin.interrupt = true) ∧
        (0 < (LoopState.mk 2 [] ["s", "a"] 1 false : LoopState).cnt →
          fin.interrupt = true) :=
  ⟨by decide, loopFunc_drain 1 [["y"], []] _ (by decide) (by decide)
    (by decide)⟩

/-!
### The unbounded relay queue

`unlimitedStringChannel` (part_005 lines 11-49).  The coordinating goroutine
holds a growable buffer `data`; its select either accepts an item from the
send side (appending), observes the send side's closure (setting `s = nil`),
or, when the buffer is nonempty, offers the head to a ready receiver.  After
each arm it runs `if s == nil && len(data) == 0 { close(rcv); break }`.  An
execution is a list of these select outcomes; an outcome that cannot occur
(receive from an empty buffer, send after close, any event after the receive
side closed and the goroutine exited) yields `none`.
-/

inductive QEvent where
  | send (s : String)
  | closeSnd
  | recv
deriving Repr, DecidableEq

structure QState where
  buf : List String
  sOpen : Bool
  rcvClosed : Bool
  delivered : List String
deriving Repr, DecidableEq

def initQ : QState := ⟨[], true, false, []⟩

/-- The closure-propagation check run after every select arm:
`if s == nil && len(data) == 0 { close(rcv); break }`. -/
def qCheck (st : QState) : QState :=
  if !st.sOpen && st.buf.isEmpty then { st with rcvClosed := true } else st

/-- One select arm of the coordinating goroutine.  Every arm requires the
goroutine to still be running (`rcvClosed = false`); a send or a closure
observation additionally requires the send side to still be selected
(`s` not yet nil), and a delivery requires a nonempty buffer. -/
def qStep (st : QState) : QEvent → Option QState
  | QEvent.send x =>
      if st.rcvClosed then none
      else if st.sOpen then some (qCheck { st with buf := st.buf ++ [x] })
      else none
  | QEvent.closeSnd =>
      if st.rcvClosed then none
      else if st.sOpen then some (qCheck { st with sOpen := false })
      else none
  | QEvent.recv =>
      if st.rcvClosed then none
      else
        match st.buf with
        | [] => none
        | x :: rest =>
            some (qCheck
              { st with buf := rest, delivered := st.delivered ++ [x] })

def qRun (evs : List QEvent) (st : QState) : Option QState :=
  match evs with
  | [] => some st
  | e :: rest =>
      match qStep st e with
      | none => none
      | some st' => qRun rest st'

/-- The items offered on the send side, in send order. -/
def qSends : List QEvent → List String
  | [] => []
  | QEvent.send x :: rest => x :: qSends rest
  | _ :: rest => qSends rest

theorem qCheck_fields (st : QState) :
    (qCheck st).delivered = st.delivered ∧ (qCheck st).buf = st.buf ∧
      (qCheck st).sOpen = st.sOpen ∧
      ((qCheck st).rcvClosed = true →
        st.rcvClosed = true ∨ (st.sOpen = false ∧ st.buf = [])) := by
  unfold qCheck
  by_cases hc : (!st.sOpen && st.buf.isEmpty) = true
  · rw [if_pos hc]
    simp only [Bool.and_eq_true, Bool.not_eq_true'] at hc
    exact ⟨rfl, rfl, rfl,
      fun _ => Or.inr ⟨hc.1, List.isEmpty_iff.mp hc.2⟩⟩
  · rw [if_neg hc]
    exact ⟨rfl, rfl, rfl, fun h => Or.inl h⟩

theorem qStep_some (st st' : QState) (e : QEvent)
    (h : qStep st e = some st') :
    st'.delivered ++ st'.buf = st.delivered ++ st.buf ++ qSends [e] ∧
      (st'.rcvClosed = true → st'.buf = [] ∧ st'.sOpen = false) := by
  by_cases hcl : st.rcvClosed = true
  · cases e <;> simp only [qStep, hcl, if_true, if_pos] at h <;>
      exact Option.noConfusion h
  · cases e with
    | send x =>
        simp only [qStep] at h
        rw [if_neg hcl] at h
        by_cases hs : st.sOpen = true
        · rw [if_pos hs] at h
          injection h with h
          obtain ⟨hd, hb, hso, hrc⟩ :=
            qCheck_fields { st with buf := st.buf ++ [x] }
          subst h
          refine ⟨?_, fun hcc => ?_⟩
          · rw [hd, hb]
            simp [qSends]
          · rcases hrc hcc with hbad | ⟨hbad, _⟩
            · exact absurd hbad hcl
            · exact absurd (show st.sOpen = false from hbad)
                (by simp [hs])
        · rw [if_neg hs] at h
          cases h
    | closeSnd =>
        simp only [qStep] at h
        rw [if_neg hcl] at h
        by_cases hs : st.sOpen = true
        · rw [if_pos hs] at h
          injection h with h
          obtain ⟨hd, hb, hso, hrc⟩ := qCheck_fields { st with sOpen := false }
          subst h
          refine ⟨?_, fun hcc => ?_⟩
          · rw [hd, hb]
            simp [qSends]
          · rcases hrc hcc with hbad | ⟨_, hbe⟩
            · exact absurd hbad hcl
            · exact ⟨hb.trans hbe, hso⟩
        · rw [if_neg hs] at h
          cases h
    | recv =>
        simp only [qStep] at h
        rw [if_neg hcl] at h
        rcases hbuf : st.buf with _ | ⟨x, rest⟩
        · rw [hbuf] at h
          exact Option.noConfusion h
        · rw [hbuf] at h
          injection h with h
          obtain ⟨hd, hb, hso, hrc⟩ :=
            qCheck_fields { st with buf := rest, delivered := st.delivered ++ [x] }
          subst h
          refine ⟨?_, fun hcc => ?_⟩
          · rw [hd, hb]
            simp [qSends]
          · rcases hrc hcc with hbad | ⟨hs, hbe⟩
            · exact absurd hbad hcl
            · exact ⟨hb.trans hbe, hso.trans hs⟩

theorem qRun_inv (evs : List QEvent) (st fin : QState)
    (h : qRun evs st = some fin)
    (hc : st.rcvClosed = true → st.buf = [] ∧ st.sOpen = false) :
    fin.delivered ++ fin.buf = st.delivered ++ st.buf ++ qSends evs ∧
      (fin.rcvClosed = true → fin.buf = [] ∧ fin.sOpen = false) := by
  induction evs generalizing st with
  | nil =>
      unfold qRun at h
      cases h
      exact ⟨by simp [qSends], hc⟩
  | cons e rest ih =>
      unfold qRun at h
      match hs : qStep st e with
      | none => rw [hs] at h; cases h
      | some st' =>
          rw [hs] at h
          obtain ⟨hacc, hcl⟩ := qStep_some st st' e hs
          obtain ⟨hacc', hcl'⟩ := ih st' h hcl
          refine ⟨?_, hcl'⟩
          rw [hacc', hacc]
          cases e <;> simp [qSends]

/-- C2: for every execution of the relay queue's coordinating goroutine
(any interleaving of its select arms) the delivered items followed by the
still-buffered items are exactly the items sent, in send order; if the
execution reaches the state where the receive side is closed, every sent
item has been delivered exactly once, in order, the buffer is empty, the
send side was closed, and no further select arm can fire — the closure is
propagated exactly once, only after all items were delivered. -/
theorem unlimitedStringChannel_fifo (evs : List QEvent) (fin : QState)
    (h : qRun evs initQ = some fin) :
    fin.delivered ++ fin.buf = qSends evs ∧
      (fin.rcvClosed = true →
        fin.delivered = qSends evs ∧ fin.buf = [] ∧ fin.sOpen = false ∧
          ∀ e, qStep fin e = none) := by
  obtain ⟨hacc, hcl⟩ := qRun_inv evs initQ fin h (by simp [initQ])
  simp only [initQ] at hacc
  simp at hacc
  refine ⟨hacc, fun hc => ?_⟩
  obtain ⟨hbe, hso⟩ := hcl hc
  refine ⟨by simpa [hbe] using hacc, hbe, hso, fun e => ?_⟩
  cases e <;> simp [qStep, hc]

/-- Witness for C2: two items are sent, interleaved with receives, then the
send side is closed; the receiver drains and the receive side closes. -/
theorem unlimitedStringChannel_fifo_witness :
    qRun [QEvent.send "a", QEvent.send "b", QEvent.recv, QEvent.closeSnd,
        QEvent.recv] initQ = some (QState.mk [] false true ["a", "b"]) ∧
      ((QState.mk [] false true ["a", "b"] : QState).delivered ++
          (QState.mk [] false true ["a", "b"] : QState).buf =
        qSends [QEvent.send "a", QEvent.send "b", QEvent.recv,
          QEvent.closeSnd, QEvent.recv] ∧
        ((QState.mk [] false true ["a", "b"] : QState).rcvClosed = true →
          (QState.mk [] false true ["a", "b"] : QState).delivered =
              qSends [QEvent.send "a", QEvent.send "b", QEvent.recv,
                QEvent.closeSnd, QEvent.recv] ∧
            (QState.mk [] false true ["a", "b"] : QState).buf = [] ∧
            (QState.mk [] false true ["a", "b"] : QState).sOpen = false ∧
            ∀ e, qStep (QState.mk [] false true ["a", "b"]) e = none)) :=
  ⟨by decide, unlimitedStringChannel_fifo _ _ (by decide)⟩

/-!
### Result aggregation, the error log, and the publish step

`WordFinder.addLinkData` (revision part_002 lines 176-205).  The mutex
section is guarded by `if (wds != nil && len(wds) > 0) || links != nil`;
inside it an error record is appended when `sr.err != nil` and the word map
is merged.  The `sendData` closure then publishes exactly one value on the
filter channel: `nil` via the `ctx.Done()` arm when the context is
cancelled, and `links` otherwise (immediately, or from a spawned goroutine
when the channel is full).  `nil` maps and slices are modelled as `none`;
an empty-but-non-nil map as `some []`.
-/

structure SearchRecord where
  url : String
  err : Option String
deriving Repr, DecidableEq

structure FinderState where
  words : List (String × Nat)
  errRecs : List SearchRecord
  filterSends : List (Option (List String))
deriving Repr, DecidableEq

def addLinkData (ctxDone : Bool) (st : FinderState) (sr : SearchRecord)
    (wds : Option (List (String × Nat))) (links : Option (List String)) :
    FinderState :=
  let st' :=
    if (wds.isSome && decide (0 < (wds.getD []).length)) || links.isSome then
      { st with
        errRecs := if sr.err.isSome then st.errRecs ++ [sr] else st.errRecs
        words := mergePage st.words (wds.getD []) }
    else st
  { st' with
    filterSends := st'.filterSends ++ [if ctxDone then none else links] }

/-- The failure paths of `SearchRecord.processLink` (scanner.go lines
48-96): on a transport error or an HTTP status >= 400 the record's `err`
field is set and `wf.addLinkData(ctx, sr, nil, nil)` is called with a nil
word map and a nil link slice. -/
def processFailedLink (ctxDone : Bool) (st : FinderState)
    (url errMsg : String) : FinderState :=
  addLinkData ctxDone st (SearchRecord.mk url (some errMsg)) none none

/-- `WordFinder.getErrors` (part_002 lines 225-227) just returns the
accumulated `errRecs`. -/
def getErrors (st : FinderState) : List SearchRecord :=
  st.errRecs

/-- C3 evaluated at the failing input: a Task whose fetch returns HTTP 404
reaches `addLinkData` with `wds = nil` and `links = nil`, so the guard
`(wds != nil && len(wds) > 0) || links != nil` skips the mutex section and
the error record is never appended — `getErrors` shows no entry for the
failed URL — while the filter publication still happens exactly once
(the pending-work counter balances). -/
theorem processFailedLink_drops_error :
    getErrors (processFailedLink false (FinderState.mk [] [] [])
        "http://x/404" "HTTP status 404 : Not Found") = [] ∧
      (processFailedLink false (FinderState.mk [] [] [])
          "http://x/404" "HTTP status 404 : Not Found").filterSends.length =
        1 := by
  exact ⟨rfl, rfl⟩

/-!
### The backpressure-relieved publish

`sendData` inside `addLinkData` (part_002 lines 191-203) and the plain
variant of finder.go lines 124-130.  Go select semantics: the ready arms
are `<-ctx.Done()` (exactly when the context is cancelled — a closed
channel is always ready) and `filter <- links` (exactly when the channel
has room); `default` fires only when no arm is ready; when both are ready
one is chosen nondeterministically, resolved here by `pickDone`.  The
`ctx.Done()` arm then executes a plain blocking send `filter <- nil`,
which blocks the caller exactly when the channel is full. -/

structure SendOut where
  sentValue : Option (List String)
  blocksCaller : Bool
  viaGoroutine : Bool
deriving Repr, DecidableEq

/-- The part_002 `sendData`: select over `ctx.Done()`, the channel send,
and `default` (which spawns `go func() { filter <- links }()`). -/
def sendData (ctxDone chanFull pickDone : Bool) (links : List String) :
    SendOut :=
  if ctxDone && (chanFull || pickDone) then SendOut.mk none chanFull false
  else if !chanFull then SendOut.mk (some links) false false
  else SendOut.mk (some links) false true

/-- The finder.go publish tail: select over the channel send and `default`
spawning the helper goroutine; no context arm. -/
def sendDataNoCtx (chanFull : Bool) (links : List String) : SendOut :=
  if !chanFull then SendOut.mk (some links) false false
  else SendOut.mk (some links) false true

/-- C6 counterexample: when the context is cancelled and the filter channel
is full, the only ready select arm is `ctx.Done()`, whose body performs the
blocking send `filter <- nil`: the calling worker blocks, and the links
payload is not the value delivered. -/
theorem sendData_blocks_on_cancel :
    (sendData true true false ["l"]).blocksCaller = true ∧
      ¬ (sendData true true false ["l"]).sentValue = some ["l"] := by
  decide

/-- C6 (amended): as long as cancellation has not been observed, every
publish of a discovered-links payload never blocks the calling worker and
delivers the payload exactly once, handing the send off to a spawned helper
goroutine exactly when the non-blocking send would block; this holds
unconditionally for the finder.go variant, which has no context arm.  Once
the context is cancelled, the part_002 variant instead sends a nil batch
and may block the worker until the coordinating loop receives. -/
theorem sendData_nonblocking (chanFull pickDone : Bool)
    (links : List String) :
    ((sendDataNoCtx chanFull links).blocksCaller = false ∧
        (sendDataNoCtx chanFull links).sentValue = some links ∧
        (sendDataNoCtx chanFull links).viaGoroutine = chanFull) ∧
      ((sendData false chanFull pickDone links).blocksCaller = false ∧
        (sendData false chanFull pickDone links).sentValue = some links ∧
        (sendData false chanFull pickDone links).viaGoroutine = chanFull) := by
  cases chanFull <;> cases pickDone <;>
    exact ⟨⟨rfl, rfl, rfl⟩, ⟨rfl, rfl, rfl⟩⟩

/-!
### The hostname-matching predicate

`newWordFinder` (part_002 lines 43-51) computes the crawl target from the
seed URL: `target := startURL.Hostname()`, and if the target has the
leading 4 bytes "www." they are cut off.  `SearchRecord.processHTML`
(scanner.go lines 206-212) appends a discovered link to the links slice iff
`strings.HasSuffix(u.Hostname(), wf.target)`.  `strings.HasSuffix` is a raw
byte-suffix test; on UTF-8 strings it coincides with the character-suffix
test used here (a valid encoding is self-synchronizing, so a byte suffix
equal to a whole string is character-aligned).
-/

def stripWWW (host : String) : String :=
  if "www.".data.isPrefixOf host.data then String.mk (host.data.drop 4)
  else host

/-- `strings.HasSuffix(host, target)`. -/
def hostMatches (target host : String) : Bool :=
  target.data.isSuffixOf host.data

/-- The append filter of `processHTML`: keep exactly the links whose
hostname passes the suffix test. -/
def filterByHost (target : String) (hosts : List String) : List String :=
  hosts.filter (fun h => hostMatches target h)

/-- The predicate in the spec's words, for comparison with the source's
`hostMatches`: the link hostname is the (stripped) seed hostname itself, or
a sub-host of it (some prefix followed by "." followed by the seed
hostname). -/
def specSameOrSubHost (target host : String) : Bool :=
  decide (host = target) || ('.' :: target.data).isSuffixOf host.data

/-- C7 counterexample: with seed hostname "www.google.com" the stripped
target is "google.com"; the hostname "evilgoogle.com" is neither the seed's
hostname nor a sub-host of it, yet the suffix test accepts it and
`processHTML` appends the link. -/
theorem hostMatches_not_subhost :
    hostMatches (stripWWW "www.google.com") "evilgoogle.com" = true ∧
      specSameOrSubHost (stripWWW "www.google.com") "evilgoogle.com" =
        false ∧
      filterByHost (stripWWW "www.google.com") ["evilgoogle.com"] =
        ["evilgoogle.com"] := by
  refine ⟨by decide, by decide, by decide⟩

/-- C7 (amended): the predicate derived from the seed URL strips a leading
"www." from the seed hostname and accepts a link hostname iff the stripped
seed hostname is a raw string suffix of it; a link is appended to the
discovered-links slice iff its hostname passes this suffix test (so links
with a non-matching hostname are never appended).  Every same-host and
every sub-host link is accepted, but so is any hostname that merely ends in
the target string without a label boundary. -/
theorem hostMatches_suffix (seedHost host : String) (hosts : List String) :
    (host ∈ filterByHost (stripWWW seedHost) hosts ↔
        host ∈ hosts ∧ hostMatches (stripWWW seedHost) host = true) ∧
      (specSameOrSubHost (stripWWW seedHost) host = true →
        hostMatches (stripWWW seedHost) host = true) := by
  constructor
  · simp [filterByHost, List.mem_filter]
  · intro hspec
    unfold specSameOrSubHost at hspec
    unfold hostMatches
    rcases Bool.or_eq_true _ _ |>.mp hspec with heq | hsub
    · have : host = stripWWW seedHost := of_decide_eq_true heq
      rw [this]
      simp [List.isSuffixOf_iff_suffix]
    · rw [List.isSuffixOf_iff_suffix] at hsub ⊢
      exact List.IsSuffix.trans (List.suffix_cons _ _) hsub

/-- Witness for C7 (amended) at concrete hostnames: "maps.google.com" is a
sub-host of the stripped seed hostname "google.com" and is kept by the
filter; "evil.org" is dropped. -/
theorem hostMatches_suffix_witness :
    specSameOrSubHost (stripWWW "www.google.com") "maps.google.com" = true ∧
      (("maps.google.com" ∈
          filterByHost (stripWWW "www.google.com")
            ["maps.google.com", "evil.org"] ↔
        "maps.google.com" ∈ ["maps.google.com", "evil.org"] ∧
          hostMatches (stripWWW "www.google.com") "maps.google.com" =
            true) ∧
        (specSameOrSubHost (stripWWW "www.google.com") "maps.google.com" =
            true →
          hostMatches (stripWWW "www.google.com") "maps.google.com" =
            true)) :=
  ⟨by decide, hostMatches_suffix "www.google.com" "maps.google.com"
    ["maps.google.com", "evil.org"]⟩

/-!
### getResults and the kvSorter order

`WordFinder.getResults` (part_002 lines 208-221) copies the word map into a
`kvSorter` slice in Go map iteration order, runs `sort.Sort` with
`kvSorter.Less(i, j) = kvs[j].value < kvs[i].value` (part_002 lines
241-243), i.e. descending by value, and returns the first
`min(totWords, len)` entries.  Go's `sort.Sort` guarantees only that the
result is sorted with respect to `Less` (it is not stable); the embedding
uses insertion sort, one compliant implementation.  Go map iteration order
is unspecified and deliberately varies between iterations, so two calls on
the same fixed table can present the pairs in different orders — that
nondeterminism is the `pairs` argument.
-/

structure kvPair where
  key : String
  value : Nat
deriving Repr, DecidableEq

/-- The order `sort.Sort` establishes: a pair may precede another exactly
when its value is at least the other's (`Less(i, j)` never holds for an
adjacent out-of-order pair). -/
def kvLe (a b : kvPair) : Prop := b.value ≤ a.value

instance : DecidableRel kvLe := fun _ b => Nat.decLe b.value _

instance : IsTotal kvPair kvLe := ⟨fun a b => Nat.le_total b.value a.value⟩

instance : IsTrans kvPair kvLe :=
  ⟨fun _ _ _ hab hbc => Nat.le_trans hbc hab⟩

def getResults (totWords : Nat) (pairs : List kvPair) : List kvPair :=
  (pairs.insertionSort kvLe).take (min totWords pairs.length)

/-- C8 counterexample: for the fixed table \x7ba ↦ 1, b ↦ 1\x7d, two calls
whose map iteration orders differ (both orders occur, since Go randomizes
map iteration) return different sequences for totWords = 1; and with
totWords = 2 the returned sequence is not strictly descending by count. -/
theorem getResults_not_deterministic :
    getResults 1 [kvPair.mk "a" 1, kvPair.mk "b" 1] ≠
        getResults 1 [kvPair.mk "b" 1, kvPair.mk "a" 1] ∧
      ¬ List.Pairwise (fun x y : kvPair => y.value < x.value)
          (getResults 2 [kvPair.mk "a" 1, kvPair.mk "b" 1]) := by
  refine ⟨by decide, by decide⟩

theorem sorted_getResults (totWords : Nat) (pairs : List kvPair) :
    List.Sorted kvLe (getResults totWords pairs) :=
  (List.sorted_insertionSort kvLe pairs).sublist
    (List.take_sublist _ _)

instance : IsAntisymm Nat (fun x y : Nat => y ≤ x) :=
  ⟨fun _ _ h h' => Nat.le_antisymm h' h⟩

/-- C8 (amended): getResults returns exactly min(totWords, number of
distinct words) pairs, sorted nonincreasing by count; the sequence of
counts is the same for every map iteration order of a fixed table, but when
counts tie, the key order (and which tied keys make the cutoff) depends on
the iteration order, so repeated calls need not return the identical
sequence of pairs. -/
theorem getResults_sorted (totWords : Nat) (p q : List kvPair)
    (hpq : p.Perm q) :
    (getResults totWords p).length = min totWords p.length ∧
      List.Sorted kvLe (getResults totWords p) ∧
      (getResults totWords p).map kvPair.value =
        (getResults totWords q).map kvPair.value := by
  refine ⟨?_, sorted_getResults totWords p, ?_⟩
  · have hlen : (p.insertionSort kvLe).length = p.length :=
      List.length_insertionSort kvLe p
    simp [getResults, hlen, Nat.min_le_right]
  · have hperm : (p.insertionSort kvLe).Perm (q.insertionSort kvLe) :=
      (List.perm_insertionSort kvLe p).trans
        (hpq.trans (List.perm_insertionSort kvLe q).symm)
    have hmap : ((p.insertionSort kvLe).map kvPair.value).Perm
        ((q.insertionSort kvLe).map kvPair.value) := hperm.map _
    have hs₁ : List.Sorted (fun x y : Nat => y ≤ x)
        ((p.insertionSort kvLe).map kvPair.value) :=
      List.pairwise_map.mpr (List.sorted_insertionSort kvLe p)
    have hs₂ : List.Sorted (fun x y : Nat => y ≤ x)
        ((q.insertionSort kvLe).map kvPair.value) :=
      List.pairwise_map.mpr (List.sorted_insertionSort kvLe q)
    have heq : (p.insertionSort kvLe).map kvPair.value =
        (q.insertionSort kvLe).map kvPair.value :=
      List.eq_of_perm_of_sorted hmap hs₁ hs₂
    have hql : q.length = p.length := hpq.length_eq.symm
    rw [getResults, getResults, List.map_take, List.map_take, heq, hql]

/-- Witness for C8 (amended) at a concrete table presented in two iteration
orders. -/
theorem getResults_sorted_witness :
    ([kvPair.mk "a" 2, kvPair.mk "b" 1].Perm
        [kvPair.mk "b" 1, kvPair.mk "a" 2]) ∧
      ((getResults 2 [kvPair.mk "a" 2, kvPair.mk "b" 1]).length =
          min 2 [kvPair.mk "a" 2, kvPair.mk "b" 1].length ∧
        List.Sorted kvLe
          (getResults 2 [kvPair.mk "a" 2, kvPair.mk "b" 1]) ∧
        (getResults 2 [kvPair.mk "a" 2, kvPair.mk "b" 1]).map
            kvPair.value =
          (getResults 2 [kvPair.mk "b" 1, kvPair.mk "a" 2]).map
            kvPair.value) :=
  ⟨by decide, getResults_sorted 2 [kvPair.mk "a" 2, kvPair.mk "b" 1]
    [kvPair.mk "b" 1, kvPair.mk "a" 2] (by decide)⟩

/-!
### scanText

`scanText` (scanner.go lines 241-254) first applies
`convertUnicodeEscapes` (abstracted here as the parameter `conv`, since its
internals are Unicode-escape decoding glue), then runs
`words.FindAllString(text, -1)` with `words = [\p\x7bL\x7d\d_]+`
(scanner.go lines 34-44).  For a regular expression that is a single
character class with `+`, the successive leftmost non-overlapping matches
are exactly the maximal runs of class characters, modelled by `tokens`.
The class is a Unicode-letter predicate (abstracted as `letter`), the ASCII
digits, and the underscore.  Each match `v` increments `wds[v]` when
`uint(len(v))` — the BYTE length — is at least `*minLen`, at most `*maxLen`
unless `*maxLen == 0`, and `strings.IndexByte(v, '_') == -1` (the
underscore is ASCII, so the byte test equals the character test). -/

def wordRunChar (letter : Char → Bool) (c : Char) : Bool :=
  letter c || c.isDigit || c == '_'

def tokensAux (p : Char → Bool) (cur : List Char) :
    List Char → List (List Char)
  | [] => if cur.isEmpty then [] else [cur.reverse]
  | c :: cs =>
      if p c then tokensAux p (c :: cur) cs
      else if cur.isEmpty then tokensAux p [] cs
      else cur.reverse :: tokensAux p [] cs

/-- The maximal runs of `p`-characters in the text, in order. -/
def tokens (p : Char → Bool) (text : List Char) : List (List Char) :=
  tokensAux p [] text

/-- Go `len(v)`: the UTF-8 byte length of the word. -/
def byteLen (w : List Char) : Nat :=
  (w.map Char.utf8Size).sum

/-- The filter applied to each match before counting it. -/
def keepWord (minLen maxLen : Nat) (w : List Char) : Bool :=
  decide (minLen ≤ byteLen w) &&
    (decide (maxLen = 0) || decide (byteLen w ≤ maxLen)) &&
    !(w.contains '_')

def scanText (conv : List Char → List Char) (letter : Char → Bool)
    (minLen maxLen : Nat) (text : List Char)
    (wds : List (List Char × Nat)) : List (List Char × Nat) :=
  (tokens (wordRunChar letter) (conv text)).foldl
    (fun m v => if keepWord minLen maxLen v then updateWord m v 1 else m)
    wds

theorem scanText_foldl (minLen maxLen : Nat) (toks : List (List Char))
    (m : List (List Char × Nat)) (w : List Char) :
    wordCount (toks.foldl
        (fun m v =>
          if keepWord minLen maxLen v then updateWord m v 1 else m) m) w =
      wordCount m w + (toks.filter (keepWord minLen maxLen)).count w := by
  induction toks generalizing m with
  | nil => simp
  | cons v rest ih =>
      by_cases hk : keepWord minLen maxLen v = true
      · rw [List.foldl_cons, if_pos hk, ih, wordCount_updateWord,
          List.filter_cons_of_pos hk, List.count_cons]
        by_cases hvw : v = w
        · subst hvw
          simp
          omega
        · simp [hvw]
      · rw [List.foldl_cons, if_neg hk, ih,
          List.filter_cons_of_neg (by simpa using hk)]

/-- C10: for every input text, scanText increments a word's count exactly
once per maximal match of the class `[\p\x7bL\x7d\d_]+` (in the text the
extraction step scans) whose byte length is at least minLen, at most maxLen
unless maxLen is 0, and which contains no underscore; a word containing an
underscore is never counted even though the extraction pattern matches
it. -/
theorem scanText_counts (conv : List Char → List Char)
    (letter : Char → Bool) (minLen maxLen : Nat) (text : List Char)
    (wds : List (List Char × Nat)) (w : List Char) :
    wordCount (scanText conv letter minLen maxLen text wds) w =
        wordCount wds w +
          ((tokens (wordRunChar letter) (conv text)).filter
            (keepWord minLen maxLen)).count w ∧
      (w.contains '_' = true →
        wordCount (scanText conv letter minLen maxLen text wds) w =
          wordCount wds w) := by
  have hmain := scanText_foldl minLen maxLen
    (tokens (wordRunChar letter) (conv text)) wds w
  refine ⟨hmain, fun hu => ?_⟩
  rw [scanText, hmain]
  have hzero : ((tokens (wordRunChar letter) (conv text)).filter
      (keepWord minLen maxLen)).count w = 0 := by
    rw [List.count_eq_zero]
    intro hmem
    have hk := List.of_mem_filter hmem
    unfold keepWord at hk
    simp only [Bool.and_eq_true, Bool.not_eq_true'] at hk
    rw [hk.2] at hu
    exact Bool.false_ne_true hu
  rw [hzero]
  omega

/-- Witness for C10 at a concrete text: in "foo_bar hello" (identity
conversion, ASCII letters, minLen 3, no upper bound) the match "foo_bar"
contains an underscore and is not counted, while "hello" is counted
once. -/
theorem scanText_counts_witness :
    (wordCount (scanText id Char.isAlpha 3 0 "foo_bar hello".data [])
          "hello".data =
        wordCount ([] : List (List Char × Nat)) "hello".data +
          ((tokens (wordRunChar Char.isAlpha) (id "foo_bar hello".data)).filter
            (keepWord 3 0)).count "hello".data ∧
      ("hello".data.contains '_' = true →
        wordCount (scanText id Char.isAlpha 3 0 "foo_bar hello".data [])
            "hello".data =
          wordCount ([] : List (List Char × Nat)) "hello".data)) ∧
      wordCount (scanText id Char.isAlpha 3 0 "foo_bar hello".data [])
          "hello".data = 1 ∧
      wordCount (scanText id Char.isAlpha 3 0 "foo_bar hello".data [])
          "foo_bar".data = 0 ∧
      "foo_bar".data ∈ tokens (wordRunChar Char.isAlpha)
        "foo_bar hello".data :=
  ⟨scanText_counts id Char.isAlpha 3 0 "foo_bar hello".data [] "hello".data,
    by decide, by decide, by decide⟩

end SiteWordFreq
